import Mathlib

/-!
Shallow embedding of the three Advent-of-Code 2022 solutions of this
repository (day1: calorie counting, day2: rock-paper-scissors strategy,
day3: rucksack priorities).  Strings are modelled as lists of characters,
machine integers (`u64`, `u8`) as `Nat` (no arithmetic here comes near
overflow), and fallible or panicking code as `Option`.  Each definition
mirrors one function of `src/day{1,2,3}/src/main.rs`.
-/

/-! ## day1/src/main.rs -/

/-- `Elf` of day1: an id and the calorie values of the food carried
(`Food` is a plain wrapper around a `u64` calorie value, so the food list
is modelled directly as the list of calorie values). -/
structure Elf where
  id : Nat
  food_carried : List Nat
deriving DecidableEq, Repr

/-- `Elf::total_calories_carried`: fold of `+` over the food values,
starting from `0`. -/
def Elf.total_calories_carried (e : Elf) : Nat :=
  e.food_carried.foldl (fun acc calorie_value => acc + calorie_value) 0

/-- `ElfGroup::add_elf`: pushes a new `Elf` whose id is the current length
plus one. -/
def add_elf (g : List Elf) (food_carried : List Nat) : List Elf :=
  g ++ [Elf.mk (g.length + 1) food_carried]

/-- Repeated `ElfGroup::add_elf` starting from `ElfGroup::default()`, one
call per food list, as `main` and the tests build the group. -/
def build_elf_group (foodss : List (List Nat)) : List Elf :=
  foodss.foldl add_elf []

/-- The reduction step of Rust's `Iterator::max_by_key` on
`total_calories_carried`: the running maximum is kept only while it is
strictly greater, so of several equally maximal elements the last one wins. -/
def max_by_total (acc e : Elf) : Elf :=
  if acc.total_calories_carried > e.total_calories_carried then acc else e

/-- `ElfGroup::elf_with_most_calories`: `None` on the empty group, else
`max_by_key` over the elves' total calories. -/
def elf_with_most_calories (g : List Elf) : Option Elf :=
  match g with
  | [] => none
  | x :: xs => some (xs.foldl max_by_total x)

/-- `ElfGroup::top_3_elves_calories`: collect the totals, sort by
`Reverse(cal)` (i.e. descending), take 3, sum.  The sorted list of `Nat`s
is the same for every correct sort of the same multiset, so Rust's stable
`sort_by_key` is modelled by insertion sort with `≥`. -/
def top_3_elves_calories (g : List Elf) : Nat :=
  (((g.map Elf.total_calories_carried).insertionSort (fun a b => a ≥ b)).take 3).sum

/-- One line of day1's input: blank, or one parsed calorie value. -/
inductive InputLine where
  | blank
  | calorie (v : Nat)
deriving DecidableEq, Repr

/-- The grouping loop of day1's `main`: a blank line pushes the current
food list as a new elf and clears it; a calorie line appends to the
current food list.  The final state's group is returned — whatever is
left in `cur_food_carried` when the lines run out is not added. -/
def process_lines (lines : List InputLine) : List Elf :=
  (lines.foldl
    (fun (st : List Elf × List Nat) line =>
      match line with
      | InputLine.blank => (add_elf st.1 st.2, [])
      | InputLine.calorie v => (st.1, st.2 ++ [v]))
    ([], [])).1

/-! ## day2/src/main.rs -/

/-- `Choice`: Rock, Paper or Scissors. -/
inductive Choice where
  | Rock
  | Paper
  | Scissors
deriving DecidableEq, Repr

/-- `Choice::points`: the `repr(u64)` discriminants 1, 2, 3. -/
def Choice.points : Choice → Nat
  | .Rock => 1
  | .Paper => 2
  | .Scissors => 3

/-- `Choice::wins_against`. -/
def Choice.wins_against (self other : Choice) : Bool :=
  match self with
  | .Rock => other == .Scissors
  | .Paper => other == .Rock
  | .Scissors => other == .Paper

/-- `ChoiceFightOutcome`: Loss, Draw or Win. -/
inductive ChoiceFightOutcome where
  | Loss
  | Draw
  | Win
deriving DecidableEq, Repr

/-- `ChoiceFightOutcome::points`: the `repr(u64)` discriminants 0, 3, 6. -/
def ChoiceFightOutcome.points : ChoiceFightOutcome → Nat
  | .Loss => 0
  | .Draw => 3
  | .Win => 6

/-- `Choice::solve_outcome`: the choice the opponent of `self` must make
for the fight to end in `desired_outcome`. -/
def Choice.solve_outcome (self : Choice) (desired_outcome : ChoiceFightOutcome) : Choice :=
  match desired_outcome with
  | .Loss =>
    match self with
    | .Rock => .Scissors
    | .Paper => .Rock
    | .Scissors => .Paper
  | .Draw => self
  | .Win =>
    match self with
    | .Rock => .Paper
    | .Paper => .Scissors
    | .Scissors => .Rock

/-- `ChoiceFight`: one match, opponent's choice and own choice. -/
structure ChoiceFight where
  opponent : Choice
  me : Choice
deriving DecidableEq, Repr

/-- `ChoiceFight::outcome`: Draw on equal choices, else Win iff `me` beats
`opponent`, else Loss. -/
def ChoiceFight.outcome (f : ChoiceFight) : ChoiceFightOutcome :=
  if f.opponent == f.me then .Draw
  else if f.me.wins_against f.opponent then .Win
  else .Loss

/-- `MatchResult`: the two running point totals. -/
structure MatchResult where
  opponent : Nat
  me : Nat
deriving DecidableEq, Repr

/-- The fold step of `StrategyGuide::points_scored`: each side starts from
its own choice's points; the outcome then adds `Win.points` to the loser's
opponent, `Draw.points` to both on a draw, or `Win.points` to `me` on a
win. -/
def points_step (result : MatchResult) (fight : ChoiceFight) : MatchResult :=
  let points_to_add_me := fight.me.points
  let points_to_add_opponent := fight.opponent.points
  match fight.outcome with
  | .Loss =>
    MatchResult.mk (result.opponent + (points_to_add_opponent + ChoiceFightOutcome.Win.points))
      (result.me + points_to_add_me)
  | .Draw =>
    MatchResult.mk (result.opponent + (points_to_add_opponent + ChoiceFightOutcome.Draw.points))
      (result.me + (points_to_add_me + ChoiceFightOutcome.Draw.points))
  | .Win =>
    MatchResult.mk (result.opponent + points_to_add_opponent)
      (result.me + (points_to_add_me + ChoiceFightOutcome.Win.points))

/-- `StrategyGuide::points_scored`: fold of `points_step` over the fights
starting from `MatchResult::default()`. -/
def points_scored (fights : List ChoiceFight) : MatchResult :=
  fights.foldl points_step (MatchResult.mk 0 0)

/-- The spec's description of per-match scoring for the self side: own
choice's fixed point value plus the outcome's value when the outcome
favors self (Win), the Draw value on a draw, nothing on a loss. -/
def self_match_points_spec (fight : ChoiceFight) : Nat :=
  fight.me.points +
    match fight.outcome with
    | .Win => ChoiceFightOutcome.Win.points
    | .Draw => ChoiceFightOutcome.Draw.points
    | .Loss => 0

/-- The spec's description of per-match scoring for the opponent side: own
choice's fixed point value plus the outcome's value when the outcome
favors the opponent (a Loss for self is a win for the opponent), the Draw
value on a draw, nothing otherwise. -/
def opponent_match_points_spec (fight : ChoiceFight) : Nat :=
  fight.opponent.points +
    match fight.outcome with
    | .Loss => ChoiceFightOutcome.Win.points
    | .Draw => ChoiceFightOutcome.Draw.points
    | .Win => 0

/-! ## day3/src/main.rs -/

/-- The `Priorities` array built by `Priorities::default()`: the 52
characters `'a'..='z'` then `'A'..='Z'` in code-point order. -/
def priorities_default : List Char :=
  (List.range 26).map (fun i => Char.ofNat (97 + i)) ++
    (List.range 26).map (fun i => Char.ofNat (65 + i))

/-- Rust's `Iterator::position` on a list: index of the first element
equal to `c`, if any. -/
def list_position (l : List Char) (c : Char) : Option Nat :=
  match l with
  | [] => none
  | p :: rest => if p = c then some 0 else (list_position rest c).map (fun i => i + 1)

/-- `Priorities::priority_for_char`: position of `c` in the priorities
array plus one; the `expect("Out of range priority")` panic on an absent
character is modelled as `none`. -/
def priority_for_char (c : Char) : Option Nat :=
  (list_position priorities_default c).map (fun pos => pos + 1)

/-- `Container::cumulated_priorities`: sum of the priorities of the
characters; `none` when any character is out of range (the panic path). -/
def cumulated_priorities (s : List Char) : Option Nat :=
  (s.mapM priority_for_char).map (fun ps => ps.sum)

/-- `Rucksack`: the two compartments (`Container` is a plain wrapper
around a string, modelled as the character list itself). -/
structure Rucksack where
  c1 : List Char
  c2 : List Char
deriving DecidableEq, Repr

/-- `Rucksack::new_from_str`: reject an odd-length record, else split it
in the middle. -/
def Rucksack.new_from_str (s : List Char) : Option Rucksack :=
  if s.length % 2 ≠ 0 then none
  else some (Rucksack.mk (s.take (s.length / 2)) (s.drop (s.length / 2)))

/-- `Rucksack::to_string`: the first compartment followed by the second. -/
def Rucksack.to_string (r : Rucksack) : List Char :=
  r.c1 ++ r.c2

/-- Rust's `Vec::dedup`: drop an element equal to the one just before it,
collapsing each run of consecutive equal elements to its first element. -/
def dedup : List Char → List Char
  | [] => []
  | x :: xs =>
    match xs with
    | [] => [x]
    | y :: _ => if x = y then dedup xs else x :: dedup xs

/-- `Rucksack::common_items`: the characters of compartment 1 that also
occur in compartment 2, in compartment-1 order, then `Vec::dedup`. -/
def Rucksack.common_items (r : Rucksack) : List Char :=
  dedup (r.c1.filter (fun item => decide (item ∈ r.c2)))

/-- `Rucksack::common_items_with_group`: the characters of the whole first
record that occur in both other records, in first-record order, then
`Vec::dedup`. -/
def Rucksack.common_items_with_group (r two three : Rucksack) : List Char :=
  dedup ((r.to_string).filter
    (fun c => decide (c ∈ two.to_string) && decide (c ∈ three.to_string)))

/-- `RucksackGroup::cumulated_priority_sum`: sum over the rucksacks of the
cumulated priorities of their common items (`none` if any lookup panics). -/
def cumulated_priority_sum (g : List Rucksack) : Option Nat :=
  (g.mapM (fun rs => cumulated_priorities rs.common_items)).map (fun ps => ps.sum)

/-- Rust's `chunks_exact(3)`: the consecutive disjoint triples; a trailing
remainder of fewer than 3 elements is not produced. -/
def chunks_exact_3 : List Rucksack → List (Rucksack × Rucksack × Rucksack)
  | a :: b :: c :: rest => (a, b, c) :: chunks_exact_3 rest
  | _ => []

/-- `RucksackGroup::group_badge_priority_sum`: for each exact chunk of 3,
the cumulated priorities of the badge (the common items of the three
records), summed. -/
def group_badge_priority_sum (g : List Rucksack) : Option Nat :=
  ((chunks_exact_3 g).mapM
      (fun t => cumulated_priorities (t.1.common_items_with_group t.2.1 t.2.2))).map
    (fun ps => ps.sum)

/-! ## The spec's worked scenarios -/

example : top_3_elves_calories (build_elf_group
    [[1000, 2000, 3000], [4000], [5000, 6000], [7000, 8000, 9000], [10000]]) = 45000 := by
  decide

example : (elf_with_most_calories (build_elf_group
    [[1000, 2000, 3000], [4000], [5000, 6000], [7000, 8000, 9000], [10000]])).map Elf.id
    = some 4 := by decide

example : points_scored
    [ChoiceFight.mk .Rock .Paper, ChoiceFight.mk .Paper .Rock,
      ChoiceFight.mk .Scissors .Scissors] = MatchResult.mk 15 15 := by decide

example : priority_for_char 'p' = some 16 := by decide

example : (Rucksack.new_from_str "vJrwpWtwJgWrhcsFMMfFFhFp".toList).map Rucksack.common_items
    = some ['p'] := by decide

/-! ## Helper lemmas -/

theorem points_step_split (result : MatchResult) (fight : ChoiceFight) :
    points_step result fight =
      MatchResult.mk (result.opponent + opponent_match_points_spec fight)
        (result.me + self_match_points_spec fight) := by
  unfold points_step self_match_points_spec opponent_match_points_spec
  cases h : fight.outcome <;> simp [h]

theorem points_scored_foldl (fights : List ChoiceFight) :
    ∀ acc : MatchResult,
      fights.foldl points_step acc =
        MatchResult.mk (acc.opponent + (fights.map opponent_match_points_spec).sum)
          (acc.me + (fights.map self_match_points_spec).sum) := by
  induction fights with
  | nil => intro acc; simp
  | cons f fs ih =>
    intro acc
    simp only [List.foldl_cons, List.map_cons, List.sum_cons]
    rw [points_step_split, ih]
    simp
    constructor <;> omega

theorem chunks_exact_3_take :
    ∀ g : List Rucksack, chunks_exact_3 (g.take (g.length / 3 * 3)) = chunks_exact_3 g
  | [] => rfl
  | [_] => by simp [chunks_exact_3]
  | [_, _] => by simp [chunks_exact_3]
  | a :: b :: c :: rest => by
    have h3 : (a :: b :: c :: rest).length / 3 * 3 = rest.length / 3 * 3 + 3 := by
      simp
      omega
    rw [h3]
    have ht : (a :: b :: c :: rest).take (rest.length / 3 * 3 + 3) =
        a :: b :: c :: rest.take (rest.length / 3 * 3) := rfl
    rw [ht]
    show (a, b, c) :: chunks_exact_3 (rest.take (rest.length / 3 * 3)) =
      (a, b, c) :: chunks_exact_3 rest
    rw [chunks_exact_3_take rest]

/-! ## Claim theorems -/

/-- C2: the grouping loop of day1's `main` does NOT capture a trailing
group that is not followed by a blank line: on the lines `1000`, blank,
`2000` it produces only the elf `[1000]`, dropping the trailing `[2000]`.
This evaluates the code at the claim's failing input. -/
theorem C2_trailing_group_dropped :
    process_lines [InputLine.calorie 1000, InputLine.blank, InputLine.calorie 2000] =
      [Elf.mk 1 [1000]] := by
  rfl

/-- C3: for every choice `x` and desired outcome `d`, the fight of `x`
against `solve_outcome x d` resolves to `d` (round-trip law). -/
theorem C3_solve_outcome_round_trip :
    ∀ (x : Choice) (d : ChoiceFightOutcome),
      (ChoiceFight.mk x (x.solve_outcome d)).outcome = d := by
  intro x d
  cases x <;> cases d <;> rfl

/-- C5: for every even-length record, `new_from_str` succeeds with two
halves of length `len/2` each whose concatenation (`to_string`) restores
the record. -/
theorem C5_split_left_inverse (s : List Char) (h : s.length % 2 = 0) :
    ∃ r : Rucksack, Rucksack.new_from_str s = some r ∧
      r.c1.length = s.length / 2 ∧ r.c2.length = s.length / 2 ∧ r.to_string = s := by
  refine ⟨Rucksack.mk (s.take (s.length / 2)) (s.drop (s.length / 2)), ?_, ?_, ?_, ?_⟩
  · simp [Rucksack.new_from_str, h]
  · simp [List.length_take]
    omega
  · simp [List.length_drop]
    omega
  · simp [Rucksack.to_string]

/-- C5 witness: the split of the concrete record `"ab"`. -/
theorem C5_split_left_inverse_witness :
    ∃ r : Rucksack, Rucksack.new_from_str ['a', 'b'] = some r ∧
      r.c1.length = ['a', 'b'].length / 2 ∧ r.c2.length = ['a', 'b'].length / 2 ∧
      r.to_string = ['a', 'b'] :=
  C5_split_left_inverse ['a', 'b'] (by decide)

/-- C6: `new_from_str` fails exactly on odd-length records, and the empty
record is accepted with two empty halves. -/
theorem C6_odd_length_rejected :
    (∀ s : List Char, Rucksack.new_from_str s = none ↔ s.length % 2 = 1) ∧
    Rucksack.new_from_str [] = some (Rucksack.mk [] []) := by
  constructor
  · intro s
    unfold Rucksack.new_from_str
    by_cases h : s.length % 2 = 0
    · rw [if_neg (by omega)]
      simp
      omega
    · rw [if_pos (by omega)]
      simp
      omega
  · rfl

/-- C7: the per-side accumulation awards each side its own choice's fixed
value plus the outcome's value to the favored side (both get the Draw
value on a draw), and the scenario `(A,Y) (B,X) (C,Z)` totals 15 / 15. -/
theorem C7_per_side_point_accumulation :
    (∀ fights : List ChoiceFight,
        points_scored fights =
          MatchResult.mk ((fights.map opponent_match_points_spec).sum)
            ((fights.map self_match_points_spec).sum)) ∧
    points_scored
        [ChoiceFight.mk .Rock .Paper, ChoiceFight.mk .Paper .Rock,
          ChoiceFight.mk .Scissors .Scissors] = MatchResult.mk 15 15 := by
  constructor
  · intro fights
    have h := points_scored_foldl fights (MatchResult.mk 0 0)
    simpa [points_scored] using h
  · decide

/-- C8: when the record count is not a multiple of 3, the badge sum is
computed from the full chunks of 3 only (the prefix of length
`len / 3 * 3`), and what is dropped is exactly the 1- or 2-record
remainder. -/
theorem C8_group_badge_drops_remainder (g : List Rucksack) (_h : g.length % 3 ≠ 0) :
    group_badge_priority_sum g = group_badge_priority_sum (g.take (g.length / 3 * 3)) ∧
    (g.drop (g.length / 3 * 3)).length = g.length % 3 := by
  constructor
  · unfold group_badge_priority_sum
    rw [chunks_exact_3_take]
  · simp [List.length_drop]
    omega

/-- C8 witness: a concrete group of 4 one-character rucksacks. -/
theorem C8_group_badge_drops_remainder_witness :
    group_badge_priority_sum
        [Rucksack.mk ['a'] ['a'], Rucksack.mk ['a'] ['a'],
          Rucksack.mk ['a'] ['a'], Rucksack.mk ['a'] ['a']] =
      group_badge_priority_sum
        ([Rucksack.mk ['a'] ['a'], Rucksack.mk ['a'] ['a'],
            Rucksack.mk ['a'] ['a'], Rucksack.mk ['a'] ['a']].take
          ([Rucksack.mk ['a'] ['a'], Rucksack.mk ['a'] ['a'],
              Rucksack.mk ['a'] ['a'], Rucksack.mk ['a'] ['a']].length / 3 * 3)) ∧
    ([Rucksack.mk ['a'] ['a'], Rucksack.mk ['a'] ['a'],
        Rucksack.mk ['a'] ['a'], Rucksack.mk ['a'] ['a']].drop
      ([Rucksack.mk ['a'] ['a'], Rucksack.mk ['a'] ['a'],
          Rucksack.mk ['a'] ['a'], Rucksack.mk ['a'] ['a']].length / 3 * 3)).length =
      [Rucksack.mk ['a'] ['a'], Rucksack.mk ['a'] ['a'],
        Rucksack.mk ['a'] ['a'], Rucksack.mk ['a'] ['a']].length % 3 :=
  C8_group_badge_drops_remainder _ (by decide)

theorem dedup_cons_eq (x y : Char) (rest : List Char) :
    dedup (x :: y :: rest) = if x = y then dedup (y :: rest) else x :: dedup (y :: rest) := rfl

theorem dedup_sublist : ∀ l : List Char, List.Sublist (dedup l) l := by
  intro l
  induction l with
  | nil => simp [dedup]
  | cons x xs ih =>
    cases xs with
    | nil => simp [dedup]
    | cons y rest =>
      rw [dedup_cons_eq]
      by_cases h : x = y
      · rw [if_pos h]
        exact ih.trans (List.sublist_cons_self x (y :: rest))
      · rw [if_neg h]
        exact ih.cons₂ x

theorem mem_dedup : ∀ (c : Char) (l : List Char), c ∈ dedup l ↔ c ∈ l := by
  intro c l
  induction l with
  | nil => simp [dedup]
  | cons x xs ih =>
    cases xs with
    | nil => simp [dedup]
    | cons y rest =>
      rw [dedup_cons_eq]
      by_cases h : x = y
      · rw [if_pos h]
        subst h
        rw [ih]
        simp [List.mem_cons]
      · rw [if_neg h]
        simp [List.mem_cons, ih]

theorem dedup_cons_head : ∀ (x : Char) (xs : List Char), ∃ t, dedup (x :: xs) = x :: t := by
  intro x xs
  induction xs generalizing x with
  | nil => exact ⟨[], rfl⟩
  | cons y rest ih =>
    rw [dedup_cons_eq]
    by_cases h : x = y
    · rw [if_pos h]
      subst h
      exact ih x
    · rw [if_neg h]
      exact ⟨dedup (y :: rest), rfl⟩

theorem dedup_chain' : ∀ l : List Char, List.Chain' (fun a b => a ≠ b) (dedup l) := by
  intro l
  induction l with
  | nil => simp [dedup]
  | cons x xs ih =>
    cases xs with
    | nil => simp [dedup]
    | cons y rest =>
      rw [dedup_cons_eq]
      by_cases h : x = y
      · rw [if_pos h]
        exact ih
      · rw [if_neg h]
        obtain ⟨t, ht⟩ := dedup_cons_head y rest
        rw [ht]
        rw [ht] at ih
        exact List.chain'_cons.mpr ⟨h, ih⟩

theorem list_position_none_iff (l : List Char) (c : Char) :
    list_position l c = none ↔ c ∉ l := by
  induction l with
  | nil => simp [list_position]
  | cons p rest ih =>
    unfold list_position
    by_cases h : p = c
    · simp [h]
    · simp only [if_neg h, Option.map_eq_none', ih, List.mem_cons]
      constructor
      · intro hn hor
        rcases hor with hc | hm
        · exact h hc.symm
        · exact hn hm
      · intro hn hm
        exact hn (Or.inr hm)

theorem list_position_some (l : List Char) (c : Char) :
    ∀ i, list_position l c = some i → ∃ h : i < l.length, l.get ⟨i, h⟩ = c := by
  induction l with
  | nil => intro i h; simp [list_position] at h
  | cons p rest ih =>
    intro i h
    unfold list_position at h
    by_cases hp : p = c
    · rw [if_pos hp] at h
      cases h
      exact ⟨by simp, hp⟩
    · rw [if_neg hp] at h
      cases hr : list_position rest c with
      | none =>
        rw [hr] at h
        simp at h
      | some j =>
        rw [hr] at h
        simp only [Option.map_some'] at h
        obtain ⟨hj, hget⟩ := ih j hr
        cases h
        exact ⟨by simpa using Nat.succ_lt_succ hj, by simpa using hget⟩

theorem priority_for_getD :
    ∀ i : Fin 52, priority_for_char (priorities_default.getD i.val 'a') = some (i.val + 1) := by
  decide

/-- C1 counterexample: `Vec::dedup` only removes consecutive duplicates,
so on the even-length record `"abaaba"` (compartments `"aba"` / `"aba"`)
the symbol `'a'` is common to both compartments yet appears twice in the
common-items result — not exactly once as the claim states. -/
theorem C1_counterexample_repeated_common_symbol :
    Rucksack.new_from_str ['a', 'b', 'a', 'a', 'b', 'a'] =
        some (Rucksack.mk ['a', 'b', 'a'] ['a', 'b', 'a']) ∧
    (Rucksack.mk ['a', 'b', 'a'] ['a', 'b', 'a']).common_items = ['a', 'b', 'a'] ∧
    ('a' ∈ (Rucksack.mk ['a', 'b', 'a'] ['a', 'b', 'a']).c1 ∧
      'a' ∈ (Rucksack.mk ['a', 'b', 'a'] ['a', 'b', 'a']).c2) ∧
    (Rucksack.mk ['a', 'b', 'a'] ['a', 'b', 'a']).common_items.count 'a' = 2 := by
  decide

/-- C1 amended: the common-items result contains exactly the symbols
present in every range, in first-range order (it is a sublist of the
first range), with only CONSECUTIVE duplicates collapsed (no two adjacent
equal symbols); a common symbol whose kept occurrences are separated by
another common symbol may appear more than once. -/
theorem C1_amended_consecutive_dedup :
    (∀ (r : Rucksack) (c : Char), c ∈ r.common_items ↔ c ∈ r.c1 ∧ c ∈ r.c2) ∧
    (∀ r : Rucksack, List.Sublist r.common_items r.c1) ∧
    (∀ r : Rucksack, List.Chain' (fun a b => a ≠ b) r.common_items) ∧
    (∀ (one two three : Rucksack) (c : Char),
        c ∈ one.common_items_with_group two three ↔
          c ∈ one.to_string ∧ c ∈ two.to_string ∧ c ∈ three.to_string) ∧
    (∀ one two three : Rucksack,
        List.Sublist (one.common_items_with_group two three) one.to_string) ∧
    (∀ one two three : Rucksack,
        List.Chain' (fun a b => a ≠ b) (one.common_items_with_group two three)) := by
  refine ⟨?_, ?_, ?_, ?_, ?_, ?_⟩
  · intro r c
    unfold Rucksack.common_items
    rw [mem_dedup]
    simp [List.mem_filter]
  · intro r
    exact (dedup_sublist _).trans (List.filter_sublist _)
  · intro r
    exact dedup_chain' _
  · intro one two three c
    unfold Rucksack.common_items_with_group
    rw [mem_dedup]
    simp [List.mem_filter, and_assoc]
  · intro one two three
    exact (dedup_sublist _).trans (List.filter_sublist _)
  · intro one two three
    exact dedup_chain' _

/-- C4: the priority map sends `'a'..'z'` to `1..26` and `'A'..'Z'` to
`27..52`, no two characters share a rank, every rank `1..52` is reached,
and the lookup fails exactly on characters outside the 52-entry table,
whose members are exactly the 26 lowercase and 26 uppercase letters. -/
theorem C4_priority_map_bijection :
    (∀ i : Fin 26, priority_for_char (Char.ofNat (97 + i.val)) = some (i.val + 1)) ∧
    (∀ i : Fin 26, priority_for_char (Char.ofNat (65 + i.val)) = some (27 + i.val)) ∧
    (∀ (c₁ c₂ : Char) (r : Nat),
        priority_for_char c₁ = some r → priority_for_char c₂ = some r → c₁ = c₂) ∧
    (∀ r : Nat, 1 ≤ r → r ≤ 52 → ∃ c : Char, priority_for_char c = some r) ∧
    (∀ c : Char, priority_for_char c = none ↔ c ∉ priorities_default) ∧
    (∀ c : Char, c ∈ priorities_default ↔
        ((∃ i : Nat, i < 26 ∧ c = Char.ofNat (97 + i)) ∨
          (∃ i : Nat, i < 26 ∧ c = Char.ofNat (65 + i)))) := by
  refine ⟨by decide, by decide, ?_, ?_, ?_, ?_⟩
  · intro c₁ c₂ r h₁ h₂
    unfold priority_for_char at h₁ h₂
    rw [Option.map_eq_some'] at h₁ h₂
    obtain ⟨i₁, hp₁, hi₁⟩ := h₁
    obtain ⟨i₂, hp₂, hi₂⟩ := h₂
    have hii : i₁ = i₂ := by omega
    obtain ⟨hb₁, hg₁⟩ := list_position_some _ _ i₁ hp₁
    obtain ⟨hb₂, hg₂⟩ := list_position_some _ _ i₂ hp₂
    subst hii
    rw [← hg₁, ← hg₂]
  · intro r h1 h52
    refine ⟨priorities_default.getD (r - 1) 'a', ?_⟩
    have h := priority_for_getD ⟨r - 1, by omega⟩
    simpa [Nat.sub_add_cancel h1] using h
  · intro c
    unfold priority_for_char
    rw [Option.map_eq_none']
    exact list_position_none_iff _ _
  · intro c
    unfold priorities_default
    simp only [List.mem_append, List.mem_map, List.mem_range]
    constructor
    · intro hor
      rcases hor with ⟨i, hi, hc⟩ | ⟨i, hi, hc⟩
      · exact Or.inl ⟨i, hi, hc.symm⟩
      · exact Or.inr ⟨i, hi, hc.symm⟩
    · intro hor
      rcases hor with ⟨i, hi, hc⟩ | ⟨i, hi, hc⟩
      · exact Or.inl ⟨i, hi, hc.symm⟩
      · exact Or.inr ⟨i, hi, hc.symm⟩

theorem sum_le_of_sublist {l₁ l₂ : List Nat} (h : List.Sublist l₁ l₂) : l₁.sum ≤ l₂.sum := by
  induction h with
  | slnil => simp
  | cons a hs ih =>
    simp only [List.sum_cons]
    omega
  | cons₂ a hs ih =>
    simp only [List.sum_cons]
    omega

theorem take_succ_sum_le (a : Nat) :
    ∀ l : List Nat, (∀ x ∈ l, x ≤ a) → ∀ k, (l.take (k + 1)).sum ≤ a + (l.take k).sum := by
  intro l
  induction l with
  | nil =>
    intro _ k
    simp
  | cons x xs ih =>
    intro hb k
    cases k with
    | zero =>
      simp
      exact hb x (by simp)
    | succ j =>
      simp only [List.take_succ_cons, List.sum_cons]
      have h := ih (fun y hy => hb y (by simp [hy])) j
      omega

theorem sorted_take_dominates :
    ∀ (s d : List Nat), List.Sublist s d → List.Sorted (fun a b => a ≥ b) d →
      s.sum ≤ (d.take s.length).sum := by
  intro s d hs
  induction hs with
  | slnil =>
    intro _
    simp
  | cons a hs ih =>
    intro hd
    rw [List.sorted_cons] at hd
    obtain ⟨hba, hd'⟩ := hd
    have h1 := ih hd'
    cases hk : List.length _ with
    | zero =>
      rw [hk] at h1
      simpa using h1
    | succ j =>
      rw [hk] at h1
      rw [List.take_succ_cons, List.sum_cons]
      have h2 := take_succ_sum_le a _ (fun y hy => hba y hy) j
      omega
  | cons₂ a hs ih =>
    intro hd
    rw [List.sorted_cons] at hd
    obtain ⟨hba, hd'⟩ := hd
    simp only [List.length_cons, List.take_succ_cons, List.sum_cons]
    have h1 := ih hd'
    omega

theorem take_sum_mono (l : List Nat) {k m : Nat} (h : k ≤ m) :
    (l.take k).sum ≤ (l.take m).sum := by
  have h1 : l.take k = (l.take m).take k := by
    rw [List.take_take, Nat.min_eq_left h]
  rw [h1]
  exact sum_le_of_sublist (List.take_sublist _ _)

/-- C9: `top_3_elves_calories` is 0 on the empty group; on a group of
fewer than 3 elves it sums all totals; and in general it is the greatest
sum of any sub-multiset of at most 3 of the per-elf totals — i.e. the sum
of the 3 largest totals. -/
theorem C9_top_3_largest_totals :
    top_3_elves_calories [] = 0 ∧
    (∀ g : List Elf, g.length < 3 →
        top_3_elves_calories g = (g.map Elf.total_calories_carried).sum) ∧
    (∀ (g : List Elf) (s : List Nat),
        List.Subperm s (g.map Elf.total_calories_carried) → s.length ≤ 3 →
        s.sum ≤ top_3_elves_calories g) ∧
    (∀ g : List Elf, ∃ s : List Nat,
        List.Subperm s (g.map Elf.total_calories_carried) ∧ s.length ≤ 3 ∧
        s.sum = top_3_elves_calories g) := by
  refine ⟨rfl, ?_, ?_, ?_⟩
  · intro g hg
    unfold top_3_elves_calories
    have hperm := List.perm_insertionSort (fun a b => a ≥ b) (g.map Elf.total_calories_carried)
    have hlt : ((g.map Elf.total_calories_carried).insertionSort (fun a b => a ≥ b)).length ≤ 3 := by
      rw [hperm.length_eq, List.length_map]
      omega
    rw [List.take_of_length_le hlt]
    exact hperm.sum_eq
  · intro g s hsub hlen
    have hperm := List.perm_insertionSort (fun a b => a ≥ b) (g.map Elf.total_calories_carried)
    have hsub2 : List.Subperm s
        ((g.map Elf.total_calories_carried).insertionSort (fun a b => a ≥ b)) :=
      hsub.trans hperm.symm.subperm
    obtain ⟨u, hu_perm, hu_sub⟩ := hsub2
    have h1 := sorted_take_dominates u _ hu_sub
      (List.sorted_insertionSort (fun a b => a ≥ b) (g.map Elf.total_calories_carried))
    have h2 : (((g.map Elf.total_calories_carried).insertionSort
          (fun a b => a ≥ b)).take u.length).sum ≤
        (((g.map Elf.total_calories_carried).insertionSort (fun a b => a ≥ b)).take 3).sum := by
      apply take_sum_mono
      rw [hu_perm.length_eq]
      exact hlen
    calc s.sum = u.sum := hu_perm.sum_eq.symm
      _ ≤ _ := le_trans h1 h2
  · intro g
    have hperm := List.perm_insertionSort (fun a b => a ≥ b) (g.map Elf.total_calories_carried)
    refine ⟨((g.map Elf.total_calories_carried).insertionSort (fun a b => a ≥ b)).take 3,
      ?_, ?_, rfl⟩
    · exact (List.take_sublist _ _).subperm.trans hperm.subperm
    · simp [List.length_take]

theorem foldl_max_acc_le :
    ∀ (xs : List Elf) (x : Elf),
      x.total_calories_carried ≤ (xs.foldl max_by_total x).total_calories_carried := by
  intro xs
  induction xs with
  | nil =>
    intro x
    simp
  | cons e xs' ih =>
    intro x
    rw [List.foldl_cons]
    by_cases h : x.total_calories_carried > e.total_calories_carried
    · have hstep : max_by_total x e = x := by simp [max_by_total, h]
      rw [hstep]
      exact ih x
    · have hstep : max_by_total x e = e := by simp [max_by_total, h]
      rw [hstep]
      have h2 := ih e
      omega

theorem foldl_max_decomp :
    ∀ (xs : List Elf) (x : Elf),
      ∃ ys zs, x :: xs = ys ++ (xs.foldl max_by_total x) :: zs ∧
        (∀ y ∈ ys,
            y.total_calories_carried ≤ (xs.foldl max_by_total x).total_calories_carried) ∧
        (∀ z ∈ zs,
            z.total_calories_carried < (xs.foldl max_by_total x).total_calories_carried) := by
  intro xs
  induction xs with
  | nil =>
    intro x
    exact ⟨[], [], rfl, by simp, by simp⟩
  | cons e xs' ih =>
    intro x
    rw [List.foldl_cons]
    by_cases h : x.total_calories_carried > e.total_calories_carried
    · have hstep : max_by_total x e = x := by simp [max_by_total, h]
      rw [hstep]
      obtain ⟨ys', zs', hdec, hys, hzs⟩ := ih x
      cases ys' with
      | nil =>
        simp only [List.nil_append] at hdec
        have hxm : x = xs'.foldl max_by_total x := (List.cons.injEq _ _ _ _).mp hdec |>.1
        have hxs : xs' = zs' := (List.cons.injEq _ _ _ _).mp hdec |>.2
        refine ⟨[], e :: zs', ?_, by simp, ?_⟩
        · rw [List.nil_append, ← hxm, hxs]
        · intro z hz
          rcases List.mem_cons.mp hz with rfl | hz'
          · rw [← hxm]
            omega
          · exact hzs z hz'
      | cons y ys'' =>
        rw [List.cons_append] at hdec
        have hyx : x = y := (List.cons.injEq _ _ _ _).mp hdec |>.1
        have hxs : xs' = ys'' ++ xs'.foldl max_by_total x :: zs' :=
          (List.cons.injEq _ _ _ _).mp hdec |>.2
        have hxm : x.total_calories_carried ≤
            (xs'.foldl max_by_total x).total_calories_carried := by
          have h4 := hys y (List.mem_cons_self y ys'')
          rw [← hyx] at h4
          exact h4
        refine ⟨x :: e :: ys'', zs', ?_, ?_, hzs⟩
        · rw [List.cons_append, List.cons_append]
          exact congrArg (fun t => x :: e :: t) hxs
        · intro y' hy'
          rcases List.mem_cons.mp hy' with heq | hy''
          · rw [heq]
            exact hxm
          · rcases List.mem_cons.mp hy'' with heq2 | hy'''
            · rw [heq2]
              omega
            · exact hys y' (List.mem_cons_of_mem y hy''')
    · have hstep : max_by_total x e = e := by simp [max_by_total, h]
      rw [hstep]
      obtain ⟨ys', zs', hdec, hys, hzs⟩ := ih e
      refine ⟨x :: ys', zs', ?_, ?_, hzs⟩
      · rw [List.cons_append, ← hdec]
      · intro y hy
        rcases List.mem_cons.mp hy with rfl | hy'
        · have hem : e.total_calories_carried ≤
              (xs'.foldl max_by_total e).total_calories_carried :=
            foldl_max_acc_le xs' e
          omega
        · exact hys y hy'

theorem build_elf_group_length :
    ∀ (foodss : List (List Nat)) (g : List Elf),
      (foodss.foldl add_elf g).length = g.length + foodss.length := by
  intro foodss
  induction foodss with
  | nil =>
    intro g
    simp
  | cons f fs ih =>
    intro g
    rw [List.foldl_cons, ih]
    simp [add_elf]
    omega

theorem build_elf_group_ids :
    ∀ foodss : List (List Nat),
      (∀ e ∈ build_elf_group foodss, e.id ≤ (build_elf_group foodss).length) ∧
      List.Pairwise (fun a b => a.id < b.id) (build_elf_group foodss) := by
  suffices h : ∀ (foodss : List (List Nat)) (g : List Elf),
      (∀ e ∈ g, e.id ≤ g.length) → List.Pairwise (fun a b => a.id < b.id) g →
      ((∀ e ∈ foodss.foldl add_elf g, e.id ≤ (foodss.foldl add_elf g).length) ∧
        List.Pairwise (fun a b => a.id < b.id) (foodss.foldl add_elf g)) by
    intro foodss
    exact h foodss [] (by simp) (by simp)
  intro foodss
  induction foodss with
  | nil =>
    intro g h1 h2
    exact ⟨h1, h2⟩
  | cons f fs ih =>
    intro g h1 h2
    rw [List.foldl_cons]
    apply ih
    · intro e he
      unfold add_elf at he ⊢
      rw [List.mem_append] at he
      rcases he with he | he
      · have h3 := h1 e he
        simp only [List.length_append, List.length_singleton]
        omega
      · rw [List.mem_singleton] at he
        subst he
        simp [List.length_append]
    · unfold add_elf
      rw [List.pairwise_append]
      refine ⟨h2, by simp, ?_⟩
      intro a ha b hb
      rw [List.mem_singleton] at hb
      subst hb
      have h3 := h1 a ha
      simp only []
      omega

/-- C10: on a non-empty group built by repeated `add_elf` (ids 1, 2, …),
`elf_with_most_calories` returns a maximal elf, and of all elves sharing
the maximal total it is the one with the greatest id — i.e. the
last-added one (`max_by_key` keeps the later element on ties). -/
theorem C10_max_tie_breaks_to_last_added (foodss : List (List Nat)) (h : foodss ≠ []) :
    ∃ r : Elf, elf_with_most_calories (build_elf_group foodss) = some r ∧
      r ∈ build_elf_group foodss ∧
      (∀ e ∈ build_elf_group foodss,
          e.total_calories_carried ≤ r.total_calories_carried) ∧
      (∀ e ∈ build_elf_group foodss,
          e.total_calories_carried = r.total_calories_carried → e.id ≤ r.id) := by
  obtain ⟨hbound, hpair⟩ := build_elf_group_ids foodss
  have hlen : (build_elf_group foodss).length = foodss.length := by
    have h0 := build_elf_group_length foodss []
    simpa [build_elf_group] using h0
  cases hG : build_elf_group foodss with
  | nil =>
    exfalso
    rw [hG] at hlen
    simp only [List.length_nil] at hlen
    exact h (List.length_eq_zero.mp hlen.symm)
  | cons x xs =>
    obtain ⟨ys, zs, hdec, hys, hzs⟩ := foldl_max_decomp xs x
    refine ⟨xs.foldl max_by_total x, rfl, ?_, ?_, ?_⟩
    · rw [hdec]
      exact List.mem_append_right ys (List.mem_cons_self _ zs)
    · intro e he
      rw [hdec] at he
      rcases List.mem_append.mp he with hin | hin
      · exact hys e hin
      · rcases List.mem_cons.mp hin with heq | hin'
        · rw [heq]
        · exact le_of_lt (hzs e hin')
    · intro e he heq
      rw [hG, hdec] at hpair
      rw [List.pairwise_append] at hpair
      obtain ⟨hp1, hp2, hp3⟩ := hpair
      rw [hdec] at he
      rcases List.mem_append.mp he with hin | hin
      · exact le_of_lt (hp3 e hin _ (List.mem_cons_self _ zs))
      · rcases List.mem_cons.mp hin with heq2 | hin'
        · rw [heq2]
        · exfalso
          have h5 := hzs e hin'
          omega

/-- C10 witness: two elves with equal totals; the returned elf is the
later one (id 2). -/
theorem C10_max_tie_breaks_to_last_added_witness :
    ∃ r : Elf, elf_with_most_calories (build_elf_group [[5], [5]]) = some r ∧
      r ∈ build_elf_group [[5], [5]] ∧
      (∀ e ∈ build_elf_group [[5], [5]],
          e.total_calories_carried ≤ r.total_calories_carried) ∧
      (∀ e ∈ build_elf_group [[5], [5]],
          e.total_calories_carried = r.total_calories_carried → e.id ≤ r.id) :=
  C10_max_tie_breaks_to_last_added [[5], [5]] (by decide)
